import Mathlib

/-!
Verification of the free-module element model described by the
free-modules tutorial. The repository ships only the tutorial
(doctest documentation) for `CombinatorialFreeModule`; the element and
module operations it documents are therefore modelled here from the
specification, as canonical sparse association lists: strictly sorted
by index, never storing a zero coefficient.
-/

namespace FreeMod

/-- Modelled from the spec: an element of a free module with basis
indexed by `ι` over a ring `R` is a sparse mapping index to nonzero
coefficient, represented as an association list. -/
abbrev Element (ι R : Type) : Type := List (ι × R)

section Defs

variable {ι R : Type} [LinearOrder ι] [CommRing R] [DecidableEq R]

/-- Modelled from the spec: the support of an element is the collection
of indices appearing with nonzero coefficient. -/
def support (f : Element ι R) : List ι := f.map Prod.fst

/-- Modelled from the spec: indexing `f[i]` returns the coefficient at
index `i`, or the ring zero if `i` is absent (never an error). -/
def coeff : Element ι R → ι → R
  | [], _ => 0
  | (j, d) :: ts, i => if i = j then d else coeff ts i

/-- Modelled from the spec: the element's internal dictionary from index
to coefficient (`monomial_coefficients` in the tutorial). -/
def monomial_coefficients (f : Element ι R) : List (ι × R) := f

/-- Modelled from the spec: ordered sequence of coefficients aligned
with `monomials`. -/
def coefficients (f : Element ι R) : List R := f.map Prod.snd

/-- Modelled from the spec: a monomial is a basis element `B i`,
a single-term element with coefficient one. -/
def monomial (i : ι) : Element ι R := [(i, 1)]

/-- Modelled from the spec: ordered sequence of single-term basis
elements, one per support index. -/
def monomials (f : Element ι R) : List (Element ι R) := f.map fun p => monomial p.1

/-- Modelled from the spec: `term i c` is the single-term element
`c * B i`, empty when the coefficient is zero. -/
def term (i : ι) (c : R) : Element ι R := if c = 0 then [] else [(i, c)]

/-- Modelled from the spec: the zero element has an empty coefficient
mapping. -/
def zero : Element ι R := []

/-- Modelled from the spec (auxiliary): insert a term with nonzero
coefficient `c` into a sorted term list, accumulating additively at an
existing index and dropping an entry whose coefficient becomes zero. -/
def insertTerm (i : ι) (c : R) : Element ι R → Element ι R
  | [] => [(i, c)]
  | (j, d) :: ts =>
    if i < j then (i, c) :: (j, d) :: ts
    else if i = j then (if d + c = 0 then ts else (i, d + c) :: ts)
    else (j, d) :: insertTerm i c ts

/-- Modelled from the spec (auxiliary): add one (index, coefficient)
term into an element; adding a zero coefficient changes nothing. -/
def addTerm (ts : Element ι R) (i : ι) (c : R) : Element ι R :=
  if c = 0 then ts else insertTerm i c ts

/-- Modelled from the spec: build the element given by a list of
(index, coefficient) pairs, accumulating duplicate indices additively
and dropping resulting zero entries. -/
def ofTerms (l : List (ι × R)) : Element ι R :=
  l.foldl (fun ts p => addTerm ts p.1 p.2) []

/-- Modelled from the spec: `sum_of_terms` sums (index, coefficient)
pairs, accumulating duplicates additively and dropping zero entries. -/
def sum_of_terms (l : List (ι × R)) : Element ι R := ofTerms l

/-- Modelled from the spec: `sum_of_monomials`, each listed index
contributing coefficient one, duplicates accumulating additively. -/
def sum_of_monomials (l : List ι) : Element ι R := ofTerms (l.map fun i => (i, 1))

/-- Modelled from the spec: addition merges two coefficient mappings
entry-wise, summing coefficients at shared indices and dropping results
that become zero. -/
def add (f g : Element ι R) : Element ι R :=
  g.foldl (fun ts p => addTerm ts p.1 p.2) f

/-- Modelled from the spec: `map_coefficients` replaces every
coefficient `c` by `g c` and drops entries whose new coefficient is the
ring zero. -/
def map_coefficients (g : R → R) (f : Element ι R) : Element ι R :=
  f.filterMap fun p => if g p.2 = 0 then none else some (p.1, g p.2)

/-- Modelled from the spec: scalar multiplication scales every
coefficient, removing any entry whose coefficient becomes zero. -/
def smul (r : R) (f : Element ι R) : Element ι R :=
  map_coefficients (fun c => r * c) f

/-- Modelled from the spec: negation of an element. -/
def neg (f : Element ι R) : Element ι R := smul (-1) f

/-- Modelled from the spec: subtraction merges coefficient mappings,
subtracting coefficients and dropping entries that become zero. -/
def sub (f g : Element ι R) : Element ι R := add f (neg g)

/-- Modelled from the spec: `map_support` replaces every support index
`i` by `g i`; colliding indices have their coefficients summed, and
resulting zero coefficients are dropped. -/
def map_support (g : ι → ι) (f : Element ι R) : Element ι R :=
  ofTerms (f.map fun p => (g p.1, p.2))

/-- Modelled from the spec: the (index, coefficient) item at the
greatest support index, if any. -/
def leadingItem : Element ι R → Option (ι × R)
  | [] => none
  | [p] => some p
  | _ :: q :: ts => leadingItem (q :: ts)

/-- Modelled from the spec: the (index, coefficient) item at the least
support index, if any. -/
def trailingItem : Element ι R → Option (ι × R)
  | [] => none
  | p :: _ => some p

/-- Modelled from the spec: the support index of the leading item. -/
def leading_support (f : Element ι R) : Option ι := (leadingItem f).map Prod.fst

/-- Modelled from the spec: the coefficient of the leading item. -/
def leading_coefficient (f : Element ι R) : Option R := (leadingItem f).map Prod.snd

/-- Modelled from the spec: the leading term, coefficient times basis
element at the greatest support index. -/
def leading_term (f : Element ι R) : Option (Element ι R) :=
  (leadingItem f).map fun p => [p]

/-- Modelled from the spec: the basis element at the greatest support
index. -/
def leading_monomial (f : Element ι R) : Option (Element ι R) :=
  (leadingItem f).map fun p => monomial p.1

/-- Modelled from the spec: the support index of the trailing item. -/
def trailing_support (f : Element ι R) : Option ι := (trailingItem f).map Prod.fst

/-- Modelled from the spec: the coefficient of the trailing item. -/
def trailing_coefficient (f : Element ι R) : Option R := (trailingItem f).map Prod.snd

/-- Modelled from the spec: the trailing term, at the least support
index. -/
def trailing_term (f : Element ι R) : Option (Element ι R) :=
  (trailingItem f).map fun p => [p]

/-- Modelled from the spec: `Module.sum`, a fold by pairwise element
addition seeded at the module's zero element, so an empty input yields
the module's zero element rather than a bare numeric zero. -/
def Msum (l : List (Element ι R)) : Element ι R := l.foldl add zero

/-- Modelled from the spec: basis lookup against a declared index set
performs no validation that the index belongs to the set; it always
succeeds, returning the single-term basis element. -/
def basisLookup (declaredIndexSet : List ι) (i : ι) : Option (Element ι R) :=
  some (monomial i)

/-- Modelled from the spec: the canonical-form invariant of an element,
strictly sorted by index and never storing a zero coefficient. -/
def Canonical (f : Element ι R) : Prop :=
  List.Pairwise (fun p q : ι × R => p.1 < q.1) f ∧ ∀ p ∈ f, p.2 ≠ 0

instance decidableCanonical (f : Element ι R) : Decidable (Canonical f) :=
  inferInstanceAs (Decidable (List.Pairwise _ f ∧ ∀ p ∈ f, p.2 ≠ 0))

end Defs

/-- Modelled from the spec: the tutorial's running example element
`2*B 0 + 2*B 1 + 3*B 2` over the integers. -/
def anElementZ : Element ℤ ℤ := ofTerms [(0, 2), (1, 2), (2, 3)]

/-- Modelled from the spec: a candidate basis index as supplied by the
user of the hosting dynamic language — an integer, a string, a mutable
list of integers, or an immutable tuple of integers. -/
inductive PyObj where
  | int : Int → PyObj
  | str : String → PyObj
  | list : List Int → PyObj
  | tuple : List Int → PyObj
deriving DecidableEq

/-- Modelled from the spec: index set elements must be hashable; raw
mutable sequences (lists) are not, while integers, strings and tuples
are. -/
def hashable : PyObj → Bool
  | .list _ => false
  | _ => true

/-- Modelled from the spec: using a candidate index at the point of use
to index the basis; a non-hashable candidate is rejected with an
unhashable-index error, a hashable one yields the single-term basis
element. -/
def basisAt (i : PyObj) : Except String (List (PyObj × Int)) :=
  if hashable i then Except.ok [(i, 1)] else Except.error "UnhashableIndexError"

section Lemmas

variable {ι R : Type} [LinearOrder ι] [CommRing R] [DecidableEq R]

theorem mem_support_iff {f : Element ι R} {j : ι} :
    j ∈ support f ↔ ∃ c, (j, c) ∈ f := by
  constructor
  · intro h
    rcases List.mem_map.mp h with ⟨p, hp, hpj⟩
    exact ⟨p.2, by rwa [show (j, p.2) = p from Prod.ext hpj.symm rfl]⟩
  · rintro ⟨c, hc⟩
    exact List.mem_map.mpr ⟨(j, c), hc, rfl⟩

theorem coeff_eq_zero_of_not_mem {f : Element ι R} {j : ι}
    (h : j ∉ support f) : coeff f j = 0 := by
  induction f with
  | nil => rfl
  | cons p ts ih =>
    obtain ⟨i, c⟩ := p
    have h1 : j ≠ i := by
      intro e; exact h (by simp [support, e])
    have h2 : j ∉ support ts := by
      intro m; exact h (by simp [support] at m ⊢; exact Or.inr m)
    simpa [coeff, h1] using ih h2

theorem head_lt_of_mem_support {p : ι × R} {ts : Element ι R}
    (hs : List.Pairwise (fun p q : ι × R => p.1 < q.1) (p :: ts)) {j : ι}
    (hj : j ∈ support ts) : p.1 < j := by
  rcases mem_support_iff.mp hj with ⟨c, hc⟩
  exact (List.pairwise_cons.mp hs).1 (j, c) hc

theorem coeff_of_mem {f : Element ι R}
    (hs : List.Pairwise (fun p q : ι × R => p.1 < q.1) f) {i : ι} {c : R}
    (h : (i, c) ∈ f) : coeff f i = c := by
  induction f with
  | nil => cases h
  | cons p ts ih =>
    obtain ⟨j, d⟩ := p
    rcases List.mem_cons.mp h with heq | hmem
    · obtain ⟨rfl, rfl⟩ := Prod.mk.injEq .. ▸ heq
      · simp [coeff]
    · have hj : j < i :=
        head_lt_of_mem_support hs (mem_support_iff.mpr ⟨c, hmem⟩)
      have : i ≠ j := ne_of_gt hj
      simpa [coeff, this] using ih (List.pairwise_cons.mp hs).2 hmem

theorem coeff_ne_zero_of_mem {f : Element ι R} (hc : Canonical f) {i : ι}
    (h : i ∈ support f) : coeff f i ≠ 0 := by
  rcases mem_support_iff.mp h with ⟨c, hm⟩
  rw [coeff_of_mem hc.1 hm]
  exact hc.2 _ hm

theorem support_cons (p : ι × R) (ts : Element ι R) :
    support (p :: ts) = p.1 :: support ts := rfl

theorem support_insertTerm_subset {i : ι} {c : R} :
    ∀ {ts : Element ι R} {j : ι}, j ∈ support (insertTerm i c ts) →
      j = i ∨ j ∈ support ts := by
  intro ts
  induction ts with
  | nil =>
    intro j h
    simp only [insertTerm, support_cons] at h
    rcases List.mem_cons.mp h with rfl | h
    · exact Or.inl rfl
    · exact absurd h (by simp [support])
  | cons p ts ih =>
    obtain ⟨k, d⟩ := p
    intro j h
    by_cases h1 : i < k
    · simp only [insertTerm, if_pos h1, support_cons] at h
      rcases List.mem_cons.mp h with rfl | h
      · exact Or.inl rfl
      · exact Or.inr h
    · by_cases h2 : i = k
      · simp only [insertTerm, if_neg h1, if_pos h2] at h
        by_cases h3 : d + c = 0
        · rw [if_pos h3] at h
          exact Or.inr (by rw [support_cons]; exact List.mem_cons_of_mem _ h)
        · rw [if_neg h3, support_cons] at h
          rcases List.mem_cons.mp h with rfl | h
          · exact Or.inl rfl
          · exact Or.inr (by rw [support_cons]; exact List.mem_cons_of_mem _ h)
      · simp only [insertTerm, if_neg h1, if_neg h2, support_cons] at h
        rcases List.mem_cons.mp h with rfl | h
        · exact Or.inr (by rw [support_cons]; exact List.mem_cons_self _ _)
        · rcases ih h with h | h
          · exact Or.inl h
          · exact Or.inr (by rw [support_cons]; exact List.mem_cons_of_mem _ h)

theorem sorted_insertTerm {i : ι} {c : R} :
    ∀ {ts : Element ι R},
      List.Pairwise (fun p q : ι × R => p.1 < q.1) ts →
      List.Pairwise (fun p q : ι × R => p.1 < q.1) (insertTerm i c ts) := by
  intro ts
  induction ts with
  | nil => intro _; simp [insertTerm]
  | cons p ts ih =>
    obtain ⟨k, d⟩ := p
    intro hs
    rcases List.pairwise_cons.mp hs with ⟨hhead, htail⟩
    by_cases h1 : i < k
    · simp only [insertTerm, if_pos h1]
      refine List.pairwise_cons.mpr ⟨?_, hs⟩
      intro q hq
      rcases List.mem_cons.mp hq with rfl | hq
      · exact h1
      · exact lt_trans h1 (hhead q hq)
    · by_cases h2 : i = k
      · simp only [insertTerm, if_neg h1, if_pos h2]
        by_cases h3 : d + c = 0
        · simpa [h3] using htail
        · rw [if_neg h3]
          refine List.pairwise_cons.mpr ⟨?_, htail⟩
          intro q hq
          exact h2 ▸ hhead q hq
      · simp only [insertTerm, if_neg h1, if_neg h2]
        refine List.pairwise_cons.mpr ⟨?_, ih htail⟩
        intro q hq
        have hq' : q.1 ∈ support (insertTerm i c ts) :=
          List.mem_map.mpr ⟨q, hq, rfl⟩
        rcases support_insertTerm_subset hq' with h | h
        · rw [h]
          exact lt_of_le_of_ne (not_lt.mp h1) (Ne.symm h2)
        · rcases mem_support_iff.mp h with ⟨e, he⟩
          have := hhead (q.1, e) he
          exact this

theorem nonzero_insertTerm {i : ι} {c : R} (hc : c ≠ 0) :
    ∀ {ts : Element ι R}, (∀ p ∈ ts, p.2 ≠ 0) →
      ∀ p ∈ insertTerm i c ts, p.2 ≠ 0 := by
  intro ts
  induction ts with
  | nil =>
    intro _ p hp
    simp only [insertTerm, List.mem_singleton] at hp
    subst hp
    simpa using hc
  | cons q ts ih =>
    obtain ⟨k, d⟩ := q
    intro hnz p hp
    by_cases h1 : i < k
    · simp only [insertTerm, if_pos h1] at hp
      rcases List.mem_cons.mp hp with rfl | hp
      · simpa using hc
      · exact hnz p hp
    · by_cases h2 : i = k
      · simp only [insertTerm, if_neg h1, if_pos h2] at hp
        by_cases h3 : d + c = 0
        · rw [if_pos h3] at hp
          exact hnz p (List.mem_cons_of_mem _ hp)
        · rw [if_neg h3] at hp
          rcases List.mem_cons.mp hp with rfl | hp
          · simpa using h3
          · exact hnz p (List.mem_cons_of_mem _ hp)
      · simp only [insertTerm, if_neg h1, if_neg h2] at hp
        rcases List.mem_cons.mp hp with rfl | hp
        · exact hnz _ (List.mem_cons_self _ _)
        · exact ih (fun q hq => hnz q (List.mem_cons_of_mem _ hq)) p hp

theorem coeff_insertTerm {i : ι} {c : R} :
    ∀ {ts : Element ι R},
      List.Pairwise (fun p q : ι × R => p.1 < q.1) ts → ∀ j,
      coeff (insertTerm i c ts) j = coeff ts j + if j = i then c else 0 := by
  intro ts
  induction ts with
  | nil =>
    intro _ j
    by_cases hj : j = i <;> simp [insertTerm, coeff, hj]
  | cons p ts ih =>
    obtain ⟨k, d⟩ := p
    intro hs j
    rcases List.pairwise_cons.mp hs with ⟨hhead, htail⟩
    by_cases h1 : i < k
    · simp only [insertTerm, if_pos h1]
      by_cases hj : j = i
      · subst hj
        have hjk : j ≠ k := ne_of_lt h1
        have hnot : j ∉ support ts := by
          intro hmem
          exact absurd (head_lt_of_mem_support hs hmem) (not_lt.mpr (le_of_lt h1))
        simp [coeff, hjk, coeff_eq_zero_of_not_mem hnot]
      · simp [coeff, hj]
    · by_cases h2 : i = k
      · subst h2
        simp only [insertTerm, lt_irrefl, if_neg h1, if_pos rfl]
        by_cases h3 : d + c = 0
        · rw [if_pos h3]
          by_cases hj : j = i
          · subst hj
            have hnot : j ∉ support ts := by
              intro hmem
              exact absurd (head_lt_of_mem_support hs hmem) (lt_irrefl j)
            simp [coeff, coeff_eq_zero_of_not_mem hnot, h3]
          · simp [coeff, hj]
        · rw [if_neg h3]
          by_cases hj : j = i
          · subst hj; simp [coeff, add_comm]
          · simp [coeff, hj]
      · simp only [insertTerm, if_neg h1, if_neg h2]
        by_cases hj : j = k
        · subst hj
          have hji : j ≠ i := fun e => h2 e.symm
          simp [coeff, hji]
        · simp [coeff, hj, ih htail j]

theorem coeff_addTerm {i : ι} {c : R} {ts : Element ι R}
    (hs : List.Pairwise (fun p q : ι × R => p.1 < q.1) ts) (j : ι) :
    coeff (addTerm ts i c) j = coeff ts j + if j = i then c else 0 := by
  by_cases hc : c = 0
  · subst hc; simp [addTerm]
  · simpa [addTerm, hc] using coeff_insertTerm hs j

theorem sorted_addTerm {i : ι} {c : R} {ts : Element ι R}
    (hs : List.Pairwise (fun p q : ι × R => p.1 < q.1) ts) :
    List.Pairwise (fun p q : ι × R => p.1 < q.1) (addTerm ts i c) := by
  by_cases hc : c = 0
  · simpa [addTerm, hc] using hs
  · simpa [addTerm, hc] using sorted_insertTerm hs

theorem canonical_addTerm {i : ι} {c : R} {ts : Element ι R}
    (hc : Canonical ts) : Canonical (addTerm ts i c) := by
  by_cases h : c = 0
  · simpa [addTerm, h] using hc
  · exact ⟨by simpa [addTerm, h] using sorted_insertTerm hc.1,
      by simpa [addTerm, h] using nonzero_insertTerm h hc.2⟩

theorem canonical_foldl_addTerm {ts : Element ι R} (hc : Canonical ts)
    (l : List (ι × R)) :
    Canonical (l.foldl (fun ts p => addTerm ts p.1 p.2) ts) := by
  induction l generalizing ts with
  | nil => exact hc
  | cons p l ih => exact ih (canonical_addTerm hc)

theorem sorted_foldl_addTerm {ts : Element ι R}
    (hs : List.Pairwise (fun p q : ι × R => p.1 < q.1) ts)
    (l : List (ι × R)) :
    List.Pairwise (fun p q : ι × R => p.1 < q.1)
      (l.foldl (fun ts p => addTerm ts p.1 p.2) ts) := by
  induction l generalizing ts with
  | nil => exact hs
  | cons p l ih => exact ih (sorted_addTerm hs)

theorem coeff_foldl_addTerm {ts : Element ι R}
    (hs : List.Pairwise (fun p q : ι × R => p.1 < q.1) ts)
    (l : List (ι × R)) (j : ι) :
    coeff (l.foldl (fun ts p => addTerm ts p.1 p.2) ts) j =
      coeff ts j + ((l.filter fun p => decide (p.1 = j)).map Prod.snd).sum := by
  induction l generalizing ts with
  | nil => simp
  | cons p l ih =>
    rw [List.foldl_cons, ih (sorted_addTerm hs), coeff_addTerm hs]
    by_cases hp : p.1 = j
    · subst hp
      simp [List.filter_cons, add_assoc]
    · have hj : j ≠ p.1 := fun e => hp e.symm
      simp [List.filter_cons, hp, hj]

theorem sum_filter_eq_coeff {ts : Element ι R}
    (hs : List.Pairwise (fun p q : ι × R => p.1 < q.1) ts) (j : ι) :
    ((ts.filter fun p => decide (p.1 = j)).map Prod.snd).sum = coeff ts j := by
  induction ts with
  | nil => simp [coeff]
  | cons p ts ih =>
    obtain ⟨k, d⟩ := p
    rcases List.pairwise_cons.mp hs with ⟨hhead, htail⟩
    by_cases hk : k = j
    · subst hk
      have hfil : ts.filter (fun p => decide (p.1 = k)) = [] := by
        rw [List.filter_eq_nil_iff]
        intro q hq
        have : k < q.1 := hhead q hq
        simp [ne_of_gt this, (ne_of_gt this).symm]
      simp [List.filter_cons, hfil, coeff]
    · have hj : j ≠ k := fun e => hk e.symm
      simp [List.filter_cons, hk, coeff, hj, ih htail]

theorem canonical_nil : Canonical ([] : Element ι R) :=
  ⟨List.Pairwise.nil, by intro p hp; cases hp⟩

theorem canonical_ofTerms (l : List (ι × R)) : Canonical (ofTerms l) :=
  canonical_foldl_addTerm canonical_nil l

theorem coeff_ofTerms (l : List (ι × R)) (j : ι) :
    coeff (ofTerms l) j =
      ((l.filter fun p => decide (p.1 = j)).map Prod.snd).sum := by
  simpa [coeff] using coeff_foldl_addTerm List.Pairwise.nil l j

theorem canonical_add {f g : Element ι R} (hf : Canonical f) :
    Canonical (add f g) :=
  canonical_foldl_addTerm hf g

theorem coeff_add {f g : Element ι R}
    (hf : List.Pairwise (fun p q : ι × R => p.1 < q.1) f)
    (hg : List.Pairwise (fun p q : ι × R => p.1 < q.1) g) (j : ι) :
    coeff (add f g) j = coeff f j + coeff g j := by
  rw [add, coeff_foldl_addTerm hf g j, sum_filter_eq_coeff hg]

theorem canonical_ext : ∀ {f g : Element ι R}, Canonical f → Canonical g →
    (∀ j, coeff f j = coeff g j) → f = g := by
  intro f
  induction f with
  | nil =>
    intro g _ hg h
    cases g with
    | nil => rfl
    | cons q us =>
      obtain ⟨j, d⟩ := q
      exfalso
      have hj := h j
      simp [coeff] at hj
      exact hg.2 (j, d) (List.mem_cons_self _ _) hj.symm
  | cons p ts ih =>
    intro g hf hg h
    obtain ⟨i, c⟩ := p
    cases g with
    | nil =>
      exfalso
      have hi := h i
      simp [coeff] at hi
      exact hf.2 (i, c) (List.mem_cons_self _ _) hi
    | cons q us =>
      obtain ⟨j, d⟩ := q
      have hcne : c ≠ 0 := hf.2 (i, c) (List.mem_cons_self _ _)
      have hdne : d ≠ 0 := hg.2 (j, d) (List.mem_cons_self _ _)
      have hij : i = j := by
        have hgi : coeff ((j, d) :: us) i ≠ 0 := by
          rw [← h i]; simpa [coeff] using hcne
        have himem : i ∈ support ((j, d) :: us) := by
          by_contra hm
          exact hgi (coeff_eq_zero_of_not_mem hm)
        have hfj : coeff ((i, c) :: ts) j ≠ 0 := by
          rw [h j]; simpa [coeff] using hdne
        have hjmem : j ∈ support ((i, c) :: ts) := by
          by_contra hm
          exact hfj (coeff_eq_zero_of_not_mem hm)
        have hji : j ≤ i := by
          rcases List.mem_cons.mp himem with rfl | hm
          · exact le_refl _
          · exact le_of_lt (head_lt_of_mem_support hg.1 hm)
        have hij' : i ≤ j := by
          rcases List.mem_cons.mp hjmem with rfl | hm
          · exact le_refl _
          · exact le_of_lt (head_lt_of_mem_support hf.1 hm)
        exact le_antisymm hij' hji
      subst hij
      have hcd : c = d := by
        have := h i
        simpa [coeff] using this
      subst hcd
      have htails : ts = us := by
        refine ih ⟨(List.pairwise_cons.mp hf.1).2,
            fun p hp => hf.2 p (List.mem_cons_of_mem _ hp)⟩
          ⟨(List.pairwise_cons.mp hg.1).2,
            fun p hp => hg.2 p (List.mem_cons_of_mem _ hp)⟩ ?_
        intro j'
        by_cases hj' : j' = i
        · subst hj'
          have h1 : j' ∉ support ts := by
            intro hm
            exact absurd (head_lt_of_mem_support hf.1 hm) (lt_irrefl _)
          have h2 : j' ∉ support us := by
            intro hm
            exact absurd (head_lt_of_mem_support hg.1 hm) (lt_irrefl _)
          rw [coeff_eq_zero_of_not_mem h1, coeff_eq_zero_of_not_mem h2]
        · have := h j'
          simpa [coeff, hj'] using this
      rw [htails]

theorem map_coefficients_cons_zero {g : R → R} {p : ι × R}
    {ts : Element ι R} (hz : g p.2 = 0) :
    map_coefficients g (p :: ts) = map_coefficients g ts := by
  simp [map_coefficients, List.filterMap_cons, hz]

theorem map_coefficients_cons_ne {g : R → R} {p : ι × R}
    {ts : Element ι R} (hz : g p.2 ≠ 0) :
    map_coefficients g (p :: ts) = (p.1, g p.2) :: map_coefficients g ts := by
  simp [map_coefficients, List.filterMap_cons, hz]

theorem support_map_coefficients_subset {g : R → R} :
    ∀ {ts : Element ι R} {j : ι}, j ∈ support (map_coefficients g ts) →
      j ∈ support ts := by
  intro ts
  induction ts with
  | nil => intro j h; simpa [map_coefficients, support] using h
  | cons p ts ih =>
    intro j h
    by_cases hz : g p.2 = 0
    · rw [map_coefficients_cons_zero hz] at h
      rw [support_cons]
      exact List.mem_cons_of_mem _ (ih h)
    · rw [map_coefficients_cons_ne hz, support_cons] at h
      rcases List.mem_cons.mp h with rfl | h
      · rw [support_cons]; exact List.mem_cons_self _ _
      · rw [support_cons]; exact List.mem_cons_of_mem _ (ih h)

theorem sorted_map_coefficients {g : R → R} :
    ∀ {ts : Element ι R},
      List.Pairwise (fun p q : ι × R => p.1 < q.1) ts →
      List.Pairwise (fun p q : ι × R => p.1 < q.1) (map_coefficients g ts) := by
  intro ts
  induction ts with
  | nil => intro _; simp [map_coefficients]
  | cons p ts ih =>
    intro hs
    rcases List.pairwise_cons.mp hs with ⟨hhead, htail⟩
    by_cases hz : g p.2 = 0
    · rw [map_coefficients_cons_zero hz]
      exact ih htail
    · rw [map_coefficients_cons_ne hz]
      refine List.pairwise_cons.mpr ⟨?_, ih htail⟩
      intro q hq
      have : q.1 ∈ support ts :=
        support_map_coefficients_subset (List.mem_map.mpr ⟨q, hq, rfl⟩)
      rcases mem_support_iff.mp this with ⟨e, he⟩
      exact hhead (q.1, e) he

theorem nonzero_map_coefficients {g : R → R} :
    ∀ {ts : Element ι R}, ∀ p ∈ map_coefficients g ts, p.2 ≠ 0 := by
  intro ts
  induction ts with
  | nil => intro p hp; simp [map_coefficients] at hp
  | cons q ts ih =>
    intro p hp
    by_cases hz : g q.2 = 0
    · rw [map_coefficients_cons_zero hz] at hp
      exact ih p hp
    · rw [map_coefficients_cons_ne hz] at hp
      rcases List.mem_cons.mp hp with rfl | hp
      · exact hz
      · exact ih p hp

theorem canonical_map_coefficients {g : R → R} {f : Element ι R}
    (hs : List.Pairwise (fun p q : ι × R => p.1 < q.1) f) :
    Canonical (map_coefficients g f) :=
  ⟨sorted_map_coefficients hs, nonzero_map_coefficients⟩

theorem coeff_map_coefficients_mem {g : R → R} :
    ∀ {ts : Element ι R},
      List.Pairwise (fun p q : ι × R => p.1 < q.1) ts → ∀ {i : ι} {c : R},
      (i, c) ∈ ts → coeff (map_coefficients g ts) i = g c := by
  intro ts
  induction ts with
  | nil => intro _ i c h; cases h
  | cons p ts ih =>
    obtain ⟨k, d⟩ := p
    intro hs i c h
    rcases List.pairwise_cons.mp hs with ⟨hhead, htail⟩
    rcases List.mem_cons.mp h with heq | hmem
    · obtain ⟨rfl, rfl⟩ := Prod.mk.injEq .. ▸ heq
      by_cases hz : g c = 0
      · rw [map_coefficients_cons_zero (by simpa using hz)]
        have h1 : i ∉ support ts := by
          intro hm
          exact absurd (head_lt_of_mem_support hs hm) (lt_irrefl _)
        have h2 : i ∉ support (map_coefficients g ts) :=
          fun hm => h1 (support_map_coefficients_subset hm)
        rw [coeff_eq_zero_of_not_mem h2, hz]
      · rw [map_coefficients_cons_ne (by simpa using hz)]
        simp [coeff]
    · have hik : i ≠ k := by
        have : k < i :=
          head_lt_of_mem_support hs (mem_support_iff.mpr ⟨c, hmem⟩)
        exact ne_of_gt this
      by_cases hz : g d = 0
      · rw [map_coefficients_cons_zero (by simpa using hz)]
        exact ih htail hmem
      · rw [map_coefficients_cons_ne (by simpa using hz)]
        simpa [coeff, hik] using ih htail hmem

theorem coeff_map_coefficients_not_mem {g : R → R} {ts : Element ι R}
    {j : ι} (h : j ∉ support ts) : coeff (map_coefficients g ts) j = 0 :=
  coeff_eq_zero_of_not_mem fun hm => h (support_map_coefficients_subset hm)

theorem coeff_smul {r : R} {f : Element ι R} (hc : Canonical f) (j : ι) :
    coeff (smul r f) j = r * coeff f j := by
  by_cases hm : j ∈ support f
  · rcases mem_support_iff.mp hm with ⟨c, hmem⟩
    rw [smul, coeff_map_coefficients_mem hc.1 hmem, coeff_of_mem hc.1 hmem]
  · rw [smul, coeff_map_coefficients_not_mem hm,
      coeff_eq_zero_of_not_mem hm, mul_zero]

theorem canonical_smul {r : R} {f : Element ι R}
    (hs : List.Pairwise (fun p q : ι × R => p.1 < q.1) f) :
    Canonical (smul r f) :=
  canonical_map_coefficients hs

theorem leadingItem_mem : ∀ {f : Element ι R} {q : ι × R},
    leadingItem f = some q → q ∈ f := by
  intro f
  induction f with
  | nil => intro q h; cases h
  | cons p ts ih =>
    intro q h
    cases ts with
    | nil =>
      simp [leadingItem] at h
      subst h
      exact List.mem_cons_self _ _
    | cons r us =>
      rw [show leadingItem (p :: r :: us) = leadingItem (r :: us) from rfl] at h
      exact List.mem_cons_of_mem _ (ih h)

theorem leadingItem_max : ∀ {f : Element ι R},
    List.Pairwise (fun p q : ι × R => p.1 < q.1) f → ∀ {q : ι × R},
    leadingItem f = some q → ∀ p ∈ f, p.1 ≤ q.1 := by
  intro f
  induction f with
  | nil => intro _ q h; cases h
  | cons p ts ih =>
    intro hs q h r hr
    cases ts with
    | nil =>
      simp [leadingItem] at h
      subst h
      rcases List.mem_singleton.mp hr with rfl
      exact le_refl _
    | cons s us =>
      rw [show leadingItem (p :: s :: us) = leadingItem (s :: us) from rfl] at h
      rcases List.mem_cons.mp hr with rfl | hr
      · exact le_of_lt ((List.pairwise_cons.mp hs).1 q (leadingItem_mem h))
      · exact ih (List.pairwise_cons.mp hs).2 h r hr

theorem trailingItem_mem {f : Element ι R} {q : ι × R}
    (h : trailingItem f = some q) : q ∈ f := by
  cases f with
  | nil => cases h
  | cons p ts =>
    simp [trailingItem] at h
    subst h
    exact List.mem_cons_self _ _

theorem trailingItem_min {f : Element ι R}
    (hs : List.Pairwise (fun p q : ι × R => p.1 < q.1) f) {q : ι × R}
    (h : trailingItem f = some q) : ∀ p ∈ f, q.1 ≤ p.1 := by
  cases f with
  | nil => cases h
  | cons p ts =>
    simp [trailingItem] at h
    subst h
    intro r hr
    rcases List.mem_cons.mp hr with rfl | hr
    · exact le_refl _
    · exact le_of_lt ((List.pairwise_cons.mp hs).1 r hr)

theorem filter_map_key (g : ι → ι) (j : ι) :
    ∀ l : List (ι × R),
      (((l.map fun p => (g p.1, p.2)).filter fun p => decide (p.1 = j)).map
          Prod.snd) =
        ((l.filter fun p => decide (g p.1 = j)).map Prod.snd) := by
  intro l
  induction l with
  | nil => simp
  | cons p ts ih =>
    by_cases hp : g p.1 = j
    · simp [List.filter_cons, hp, ih]
    · simp [List.filter_cons, hp, ih]

theorem coefficients_eq_map_coeff :
    ∀ {f : Element ι R}, List.Pairwise (fun p q : ι × R => p.1 < q.1) f →
      coefficients f = (support f).map (coeff f) := by
  intro f
  induction f with
  | nil => intro _; rfl
  | cons p ts ih =>
    obtain ⟨i, c⟩ := p
    intro hs
    rcases List.pairwise_cons.mp hs with ⟨hhead, htail⟩
    have h1 : coeff ((i, c) :: ts) i = c := by simp [coeff]
    have h2 : (support ts).map (coeff ((i, c) :: ts)) =
        (support ts).map (coeff ts) := by
      refine List.map_congr_left ?_
      intro j hj
      have : i < j := head_lt_of_mem_support hs hj
      simp [coeff, ne_of_gt this]
    calc coefficients ((i, c) :: ts)
      = c :: coefficients ts := rfl
    _ = c :: (support ts).map (coeff ts) := by rw [ih htail]
    _ = coeff ((i, c) :: ts) i :: (support ts).map (coeff ((i, c) :: ts)) := by
        rw [h1, h2]
    _ = (support ((i, c) :: ts)).map (coeff ((i, c) :: ts)) := rfl

theorem monomials_eq_map_monomial (f : Element ι R) :
    monomials f = (support f).map (fun i => monomial i) := by
  simp [monomials, support, List.map_map]

theorem sorted_support {f : Element ι R}
    (hs : List.Pairwise (fun p q : ι × R => p.1 < q.1) f) :
    List.Pairwise (fun i j : ι => i < j) (support f) :=
  hs.map Prod.fst fun _ _ h => h

end Lemmas

section Claims

variable {ι R : Type} [LinearOrder ι] [CommRing R] [DecidableEq R]

/-- C1: indexing an element at an index in the support returns the
coefficient stored for it in the monomial-coefficients dictionary, and
indexing at an absent index returns the ring's zero, totally, never an
error. -/
theorem claim_indexing_spec (f : Element ι R) (hf : Canonical f) :
    (∀ i c, (i, c) ∈ monomial_coefficients f → coeff f i = c) ∧
    (∀ j, j ∉ support f → coeff f j = 0) :=
  ⟨fun _ _ h => coeff_of_mem hf.1 h, fun _ h => coeff_eq_zero_of_not_mem h⟩

/-- Witness for C1 at the tutorial's example element. -/
theorem claim_indexing_spec_witness :
    coeff anElementZ 1 = 2 ∧ coeff anElementZ 7 = 0 :=
  ⟨(claim_indexing_spec anElementZ (by decide)).1 1 2 (by decide),
   (claim_indexing_spec anElementZ (by decide)).2 7 (by decide)⟩

/-- C2: the module-level sum is a fold by pairwise element addition
seeded at the zero element; on the empty list it returns the module's
zero element (an `Element`, not a bare numeric zero), and in general it
sums coefficient mappings pointwise, preserving canonical form. -/
theorem claim_Msum_spec :
    Msum ([] : List (Element ι R)) = zero ∧
    ∀ fs : List (Element ι R), (∀ f ∈ fs, Canonical f) →
      Canonical (Msum fs) ∧
      ∀ j, coeff (Msum fs) j = (fs.map fun f => coeff f j).sum := by
  have key : ∀ (fs : List (Element ι R)) (acc : Element ι R),
      Canonical acc → (∀ f ∈ fs, Canonical f) →
      Canonical (fs.foldl add acc) ∧
      ∀ j, coeff (fs.foldl add acc) j =
        coeff acc j + (fs.map fun f => coeff f j).sum := by
    intro fs
    induction fs with
    | nil => intro acc hacc _; exact ⟨hacc, fun j => by simp⟩
    | cons f fs ih =>
      intro acc hacc hall
      have hf : Canonical f := hall f (List.mem_cons_self _ _)
      have hacc' : Canonical (add acc f) := canonical_add hacc
      rcases ih (add acc f) hacc'
        (fun g hg => hall g (List.mem_cons_of_mem _ hg)) with ⟨h1, h2⟩
      refine ⟨h1, fun j => ?_⟩
      rw [List.foldl_cons, h2 j, coeff_add hacc.1 hf.1, List.map_cons,
        List.sum_cons]
      ring
  refine ⟨rfl, fun fs hall => ?_⟩
  rcases key fs zero canonical_nil hall with ⟨h1, h2⟩
  exact ⟨h1, fun j => by simpa [Msum, zero, coeff] using h2 j⟩

/-- Witness for C2 at the empty list and a two-element list. -/
theorem claim_Msum_spec_witness :
    Msum ([] : List (Element ℤ ℤ)) = zero ∧
    coeff (Msum [anElementZ, anElementZ]) 2 = 6 := by
  refine ⟨claim_Msum_spec.1, ?_⟩
  have h := (claim_Msum_spec.2 [anElementZ, anElementZ] (by decide)).2 2
  rw [h]
  decide

/-- C3: over a totally ordered index set the leading data of an element
is read off the stored item with the greatest support index and the
trailing data off the least; on the tutorial's example the leading term
is `3 * B 2`, the leading support `2`, the leading coefficient `3` and
the leading item `(2, 3)`. -/
theorem claim_leading_trailing_spec :
    (∀ f : Element ι R, Canonical f → ∀ q : ι × R, leadingItem f = some q →
      q ∈ monomial_coefficients f ∧
        ∀ p ∈ monomial_coefficients f, p.1 ≤ q.1) ∧
    (∀ f : Element ι R, Canonical f → ∀ q : ι × R, trailingItem f = some q →
      q ∈ monomial_coefficients f ∧
        ∀ p ∈ monomial_coefficients f, q.1 ≤ p.1) ∧
    (leading_term anElementZ = some (term 2 3) ∧
     leading_monomial anElementZ = some (monomial 2) ∧
     leading_support anElementZ = some 2 ∧
     leading_coefficient anElementZ = some 3 ∧
     leadingItem anElementZ = some (2, 3) ∧
     trailingItem anElementZ = some (0, 2)) := by
  refine ⟨?_, ?_, by decide, by decide, by decide, by decide, by decide,
    by decide⟩
  · intro f hf q hq
    exact ⟨leadingItem_mem hq, fun p hp => leadingItem_max hf.1 hq p hp⟩
  · intro f hf q hq
    exact ⟨trailingItem_mem hq, fun p hp => trailingItem_min hf.1 hq p hp⟩

/-- Witness for C3 at the tutorial's example element. -/
theorem claim_leading_trailing_spec_witness :
    (2, 3) ∈ monomial_coefficients anElementZ ∧
      ∀ p ∈ monomial_coefficients anElementZ, p.1 ≤ 2 :=
  claim_leading_trailing_spec.1 anElementZ (by decide) (2, 3) (by decide)

/-- C4: rebuilding an element from the items of its
monomial-coefficients dictionary with `sum_of_terms` reconstructs the
element itself. -/
theorem claim_round_trip (f : Element ι R) (hf : Canonical f) :
    sum_of_terms (monomial_coefficients f) = f := by
  refine canonical_ext (canonical_ofTerms _) hf ?_
  intro j
  exact (coeff_ofTerms f j).trans (sum_filter_eq_coeff hf.1 j)

/-- Witness for C4 at the tutorial's example element. -/
theorem claim_round_trip_witness :
    sum_of_terms (monomial_coefficients anElementZ) = anElementZ :=
  claim_round_trip anElementZ (by decide)

/-- C5: `map_support` relabels every support index through `g`,
coefficients of colliding indices are summed additively (never
overwritten), resulting zeros are dropped and the result is canonical;
on the tutorial's example a shift by one gives `2*B 1 + 2*B 2 + 3*B 3`
and the constant map sends everything to one accumulated coefficient. -/
theorem claim_map_support_spec :
    (∀ (g : ι → ι) (f : Element ι R),
      Canonical (map_support g f) ∧
      ∀ j, coeff (map_support g f) j =
        ((f.filter fun p => decide (g p.1 = j)).map Prod.snd).sum) ∧
    map_support (fun i => i + 1) anElementZ = [(1, 2), (2, 2), (3, 3)] ∧
    map_support (fun _ => (0 : ℤ)) anElementZ = [(0, 7)] := by
  refine ⟨fun g f => ⟨canonical_ofTerms _, fun j => ?_⟩, by decide, by decide⟩
  exact (coeff_ofTerms _ j).trans (congrArg List.sum (filter_map_key g j f))

/-- C6: `map_coefficients` replaces every coefficient `c` by `g c`,
drops entries whose new coefficient is the ring zero (keeping the
no-zero-coefficients canonical form); on the tutorial's example
subtracting three from each coefficient gives `-B 0 - B 1` with the
index-two entry dropped. -/
theorem claim_map_coefficients_spec :
    (∀ (g : R → R) (f : Element ι R), Canonical f →
      Canonical (map_coefficients g f) ∧
      (∀ i c, (i, c) ∈ monomial_coefficients f →
        coeff (map_coefficients g f) i = g c) ∧
      (∀ j, j ∉ support f → coeff (map_coefficients g f) j = 0)) ∧
    map_coefficients (fun c => c - 3) anElementZ = [(0, -1), (1, -1)] :=
  ⟨fun _ f hf =>
    ⟨canonical_map_coefficients hf.1,
     fun _ _ h => coeff_map_coefficients_mem hf.1 h,
     fun _ h => coeff_map_coefficients_not_mem h⟩,
   by decide⟩

/-- Witness for C6 at the tutorial's example element. -/
theorem claim_map_coefficients_spec_witness :
    coeff (map_coefficients (fun c => c - 3) anElementZ) 0 = (2 : ℤ) - 3 :=
  ((claim_map_coefficients_spec.1 (fun c => c - 3) anElementZ
    (by decide)).2.1) 0 2 (by decide)

/-- C7: basis lookup performs no validation of the index against the
declared index set: for any index whatsoever, including one outside the
declared set, the lookup succeeds and returns the single-term basis
element rather than an error. -/
theorem claim_basis_lookup_unchecked :
    (∀ (s : List ι) (i : ι),
      (basisLookup s i : Option (Element ι R)) = some (monomial i)) ∧
    ((7 : ℤ) ∉ ([0, 1, 2, 3, 4] : List ℤ) ∧
      (basisLookup [0, 1, 2, 3, 4] (7 : ℤ) : Option (Element ℤ ℤ)) =
        some (monomial 7)) :=
  ⟨fun _ _ => rfl, by decide, rfl⟩

/-- C8: index set elements must be hashable: a non-hashable candidate
(a raw list) used to index the basis is rejected at the point of use
with an unhashable-index error, while an immutable tuple succeeds. -/
theorem claim_unhashable_index :
    (∀ i : PyObj, hashable i = false →
      basisAt i = Except.error "UnhashableIndexError") ∧
    (∀ i : PyObj, hashable i = true → basisAt i = Except.ok [(i, 1)]) ∧
    basisAt (PyObj.list [1]) = Except.error "UnhashableIndexError" ∧
    basisAt (PyObj.tuple [1]) = Except.ok [(PyObj.tuple [1], 1)] :=
  ⟨fun i h => by simp [basisAt, h],
   fun i h => by simp [basisAt, h],
   rfl, rfl⟩

/-- Witness for C8 at a list index and an integer index. -/
theorem claim_unhashable_index_witness :
    basisAt (PyObj.list [2]) = Except.error "UnhashableIndexError" ∧
    basisAt (PyObj.int 5) = Except.ok [(PyObj.int 5, 1)] :=
  ⟨claim_unhashable_index.1 (PyObj.list [2]) rfl,
   claim_unhashable_index.2.1 (PyObj.int 5) rfl⟩

/-- C9: for a canonical element over a totally ordered index set, the
support is the strictly sorted list of indices with nonzero
coefficient, and `coefficients` is aligned with `monomials` entry by
entry; on the tutorial's example the support is `[0, 1, 2]`, the
monomials `[B 0, B 1, B 2]` and the coefficients `[2, 2, 3]`. -/
theorem claim_support_coefficients_spec :
    (∀ f : Element ι R, Canonical f →
      List.Pairwise (fun i j : ι => i < j) (support f) ∧
      (∀ i, i ∈ support f ↔ coeff f i ≠ 0) ∧
      coefficients f = (support f).map (coeff f) ∧
      monomials f = (support f).map (fun i => monomial i)) ∧
    support anElementZ = [0, 1, 2] ∧
    monomials anElementZ = [monomial 0, monomial 1, monomial 2] ∧
    coefficients anElementZ = [2, 2, 3] := by
  refine ⟨fun f hf => ⟨sorted_support hf.1, fun i => ⟨?_, ?_⟩,
    coefficients_eq_map_coeff hf.1, monomials_eq_map_monomial f⟩,
    by decide, by decide, by decide⟩
  · exact fun h => coeff_ne_zero_of_mem hf h
  · intro hne
    by_contra hmem
    exact hne (coeff_eq_zero_of_not_mem hmem)

/-- Witness for C9 at the tutorial's example element. -/
theorem claim_support_coefficients_spec_witness :
    coefficients anElementZ = (support anElementZ).map (coeff anElementZ) :=
  (claim_support_coefficients_spec.1 anElementZ (by decide)).2.2.1

/-- C10: the module law that doubling an element and subtracting it
once gives the element back, as the tutorial's doctest shows for
`2*f - f`. -/
theorem claim_two_f_sub_f (f : Element ι R) (hf : Canonical f) :
    sub (smul 2 f) f = f := by
  have h2 : Canonical (smul (2 : R) f) := canonical_smul hf.1
  have hneg : Canonical (smul (-1 : R) f) := canonical_smul hf.1
  refine canonical_ext (canonical_add h2) hf ?_
  intro j
  show coeff (add (smul 2 f) (smul (-1) f)) j = coeff f j
  rw [coeff_add h2.1 hneg.1 j, coeff_smul hf j, coeff_smul hf j]
  ring

/-- Witness for C10 at the tutorial's example element. -/
theorem claim_two_f_sub_f_witness :
    sub (smul 2 anElementZ) anElementZ = anElementZ :=
  claim_two_f_sub_f anElementZ (by decide)

end Claims

end FreeMod
